import Mathlib

/-!
Verification of the streaming scaled-dot-product attention core of the
xformers repository, embedded shallowly in Lean 4.

The main embedding works over exact real arithmetic (`ℝ`), with the running
maximum represented by `XVal` (either the literal `-inf` it is initialized to
in the C++ code, or a finite real).  A second embedding (`FP`) models the
IEEE-754 special values (`±inf`, `NaN`) exactly, with exact arithmetic on
finite values; it is used for the claims about infinities and NaNs.
-/

namespace Xf

/-! ### Tensor metadata model for the `attention` operator wrapper
(`attention.cpp` lines 74-127): shapes, contiguity and element type, with the
order of `TORCH_CHECK`s, allocations and the dispatch visible as a trace. -/

/-- Element types relevant to the wrapper: `AT_DISPATCH_FLOATING_TYPES`
accepts exactly 32- and 64-bit floats. -/
inductive DType where
  | float32 : DType
  | float64 : DType
  | float16 : DType
  | int64 : DType
deriving DecidableEq

/-- Shape/layout/type metadata of an `at::Tensor` argument. -/
structure TensorMeta where
  sizes : List ℕ
  contiguous : Bool
  dtype : DType
deriving DecidableEq

/-- `tensor.dim()`. -/
def TensorMeta.dim (t : TensorMeta) : ℕ := t.sizes.length

/-- `tensor.size(i)`. -/
def TensorMeta.size (t : TensorMeta) (i : ℕ) : ℕ := t.sizes.getD i 0

/-- Types accepted by `AT_DISPATCH_FLOATING_TYPES` (`attention.cpp`
line 114): `Double` and `Float` only. -/
def isFloatingType : DType → Bool
  | DType.float32 => true
  | DType.float64 => true
  | _ => false

/-- Observable events of one call to `attention` (`attention.cpp` 74-127). -/
inductive AttnEvent where
  | checkFailed : AttnEvent
  | allocOutput : List ℕ → DType → AttnEvent
  | allocBuffer : AttnEvent
  | kernelRun : AttnEvent
deriving DecidableEq

/-- The `TORCH_CHECK`s executed before any allocation (`attention.cpp`
lines 80-100): `query.dim() == key.dim()`, `query.dim() == 3`,
`query.size(2) == key.size(2)`, `query.size(0) == key.size(0)`, and
contiguity of all three inputs. -/
def attentionPre (q k v : TensorMeta) : Bool :=
  (q.dim == k.dim) && (q.dim == 3) && (q.size 2 == k.size 2) &&
    (q.size 0 == k.size 0) && q.contiguous && k.contiguous && v.contiguous

/-- The checks executed only inside the dispatch lambda, after both
`at::empty` allocations (`attention.cpp` lines 114-124): the
`AT_DISPATCH_FLOATING_TYPES` element-type dispatch, then the
`accessor<scalar_t, 3>` calls on key and value (element type must match the
dispatched one; `value.dim()` was never checked before). -/
def attentionPost (q k v : TensorMeta) : Bool :=
  isFloatingType q.dtype && (k.dtype == q.dtype) && (v.dim == 3) &&
    (v.dtype == q.dtype)

/-- Event trace of `attention` (`attention.cpp` lines 74-127): the pre-checks
run first; only then `res = at::empty({B, M, K}, query.options())` and the
thread buffer are allocated; the dispatch/accessor checks run after that, and
the kernel writes the output last. -/
def attentionTrace (q k v : TensorMeta) : List AttnEvent :=
  if !attentionPre q k v then [AttnEvent.checkFailed]
  else
    AttnEvent.allocOutput [q.size 0, q.size 1, q.size 2] q.dtype ::
      AttnEvent.allocBuffer ::
        (if !attentionPost q k v then [AttnEvent.checkFailed]
         else [AttnEvent.kernelRun])

/-- Metadata of the tensor returned by `attention` when all checks pass:
`at::empty({B, M, K}, query.options())` with `B = query.size(0)`,
`M = query.size(1)`, `K = query.size(2)` (`attention.cpp` lines 102-108). -/
def attention_result (q k v : TensorMeta) : Option TensorMeta :=
  if attentionPre q k v && attentionPost q k v then
    some ⟨[q.size 0, q.size 1, q.size 2], true, q.dtype⟩
  else none

/-- Concrete well-formed float32 tensor metadata, shape `[1,1,1]`. -/
def tFloat : TensorMeta := ⟨[1, 1, 1], true, DType.float32⟩

/-- Concrete int64 (unsupported element type) tensor metadata. -/
def tInt : TensorMeta := ⟨[1, 1, 1], true, DType.int64⟩

/-- Concrete query metadata with feature dimension 3. -/
def qT4 : TensorMeta := ⟨[1, 2, 3], true, DType.float32⟩

/-- Concrete key metadata matching `qT4` in batch and feature dims. -/
def kT4 : TensorMeta := ⟨[1, 5, 3], true, DType.float32⟩

/-- Concrete value metadata whose feature dimension 7 differs from the
query/key feature dimension 3. -/
def vT4 : TensorMeta := ⟨[1, 5, 7], true, DType.float32⟩

noncomputable section

/-- Running-max value: the C++ kernel initializes `m_prime` to
`-std::numeric_limits<scalar_t>::infinity()`; every later value is a finite
real (for finite inputs).  `neginf` is that initial value. -/
inductive XVal where
  | neginf : XVal
  | fin : ℝ → XVal

/-- Per-row accumulator state of the scalar CPU kernel
(`attention.cpp`, `attention_kernel`): running max `m` (`m_prime`), running
normalizing sum `s` (`s_prime`), and the weighted value accumulator `buf`. -/
structure AccState where
  m : XVal
  s : ℝ
  buf : ℕ → ℝ

/-- Dot product `si = sum_k aar[k] * bar[k]` of `attention.cpp` lines 48-51. -/
def dot (K : ℕ) (a b : ℕ → ℝ) : ℝ := ∑ k ∈ Finset.range K, a k * b k

/-- The ternary `m_i = si > m_prime ? si : m_prime` of `attention.cpp`
line 52, for a finite score `si` against the running max. -/
def stepMax (si : ℝ) : XVal → ℝ
  | XVal.neginf => si
  | XVal.fin m => if si > m then si else m

/-- Models `std::exp(m_prime - m_i)` (`attention.cpp` line 55): when
`m_prime` is still `-inf`, IEEE gives `exp(-inf - m_i) = exp(-inf) = 0`. -/
def expFrom (m : XVal) (mi : ℝ) : ℝ :=
  match m with
  | XVal.neginf => 0
  | XVal.fin x => Real.exp (x - mi)

/-- One iteration of the key loop of `attention.cpp` lines 46-64: fold one
key/value row into the running state. -/
def scalarStep (K : ℕ) (qrow krow vrow : ℕ → ℝ) (st : AccState) : AccState :=
  let si := dot K qrow krow
  let m_i := stepMax si st.m
  let m_delta := expFrom st.m m_i
  let s_delta := Real.exp (si - m_i)
  ⟨XVal.fin m_i, st.s * m_delta + s_delta,
    fun k => st.buf k * m_delta + vrow k * s_delta⟩

/-- Initial per-row state of `attention.cpp` lines 42-45:
`buf` zero-filled, `s_prime = 0`, `m_prime = -inf`. -/
def initState : AccState := ⟨XVal.neginf, 0, fun _ => 0⟩

/-- The key loop `for l in [0, N)` of `attention.cpp` lines 46-64, as the
state after `N` iterations. -/
def scalarRun (K : ℕ) (qrow : ℕ → ℝ) (key value : ℕ → ℕ → ℝ) : ℕ → AccState
  | 0 => initState
  | n + 1 => scalarStep K qrow (key n) (value n) (scalarRun K qrow key value n)

/-- The scalar kernel `attention_kernel` of `attention.cpp` lines 22-72: for
batch `i`, query row `j`, output feature `k`, run the key loop and write
`oo[k] = buf[k] / s_prime`. -/
def attention_kernel (query key value : ℕ → ℕ → ℕ → ℝ) (N K : ℕ)
    (i j k : ℕ) : ℝ :=
  (scalarRun K (query i j) (key i) (value i) N).buf k /
    (scalarRun K (query i j) (key i) (value i) N).s

/-! ### The online-softmax fold over blocks (spec §4.1) -/

/-- Max of two extended values. -/
def xmax : XVal → XVal → XVal
  | XVal.neginf, y => y
  | x, XVal.neginf => x
  | XVal.fin a, XVal.fin b => XVal.fin (max a b)

/-- Maximum of a list of (finite) scores, `-inf` for the empty list. -/
def listMaxX (l : List ℝ) : XVal :=
  l.foldl (fun m c => xmax m (XVal.fin c)) XVal.neginf

/-- Real-valued maximum of a nonempty score list (`0` for the empty list,
never used there). -/
def listMax (l : List ℝ) : ℝ :=
  match listMaxX l with
  | XVal.neginf => 0
  | XVal.fin m => m

/-- Operation `fold_block(raw_scores, value_rows)` of spec §4.1:
`m_i = max(current m, max(raw_scores))`, `correction = exp(current m - m_i)`,
`weight_j = exp(raw_scores[j] - m_i)`, `s_i = s * correction + Σ weight_j`,
`acc_i = acc * correction + Σ weight_j * value_rows[j]`.  (The scalar kernel
of `attention.cpp` is its one-score instance; the tiled kernel's updater in
`attention_scaling_coefs_updater.h` is outside the given sources.) -/
def foldBlock (scores : List ℝ) (vals : List (ℕ → ℝ)) (st : AccState) :
    AccState :=
  match xmax st.m (listMaxX scores) with
  | XVal.neginf => st
  | XVal.fin m_i =>
    let correction := expFrom st.m m_i
    let weights := scores.map (fun c => Real.exp (c - m_i))
    ⟨XVal.fin m_i, st.s * correction + weights.sum,
      fun k => st.buf k * correction +
        ((weights.zip vals).map (fun p => p.1 * p.2 k)).sum⟩

/-- Normalizing sum `Σ_j exp(scores[j] - mm)`. -/
def wsum (scores : List ℝ) (mm : ℝ) : ℝ :=
  (scores.map fun c => Real.exp (c - mm)).sum

/-- Weighted value accumulation `Σ_j exp(scores[j] - mm) * vals[j][k]`. -/
def wacc (scores : List ℝ) (vals : List (ℕ → ℝ)) (mm : ℝ) (k : ℕ) : ℝ :=
  ((scores.zip vals).map fun p => Real.exp (p.1 - mm) * p.2 k).sum

/-- Invariant of spec §4.1: after folding in the scores/value rows seen so
far, `m` is the max score seen, `s = Σ_seen exp(score - m)` and
`acc[k] = Σ_seen exp(score - m) * value[k]` (sums empty, hence `0`, before
any key is seen). -/
def InvState (scores : List ℝ) (vals : List (ℕ → ℝ)) (st : AccState) : Prop :=
  st.m = listMaxX scores ∧
  (∀ mm, listMaxX scores = XVal.fin mm →
    st.s = wsum scores mm ∧ ∀ k, st.buf k = wacc scores vals mm k) ∧
  (listMaxX scores = XVal.neginf → st.s = 0 ∧ ∀ k, st.buf k = 0)

/-! ### Blocked (tiled) computation and the textbook reference (spec §4.2, §8) -/

/-- Scaled raw score `score(i,j) = scale * (Query_i · Key_j)` fed to the
fold. -/
def scoreRow (scale : ℝ) (K : ℕ) (qrow krow : ℕ → ℝ) : ℝ :=
  scale * dot K qrow krow

/-- Scale used by the tiled kernel: `kernel_forward.h` line 423 passes
`1.0f / std::sqrt(float(p.head_dim))` to the updater. -/
def tiledScale (K : ℕ) : ℝ := 1 / Real.sqrt K

/-- Modelled from the spec: the per-query-row blocked computation of
`AttentionKernel::attention_kernel` (`kernel_forward.h`), whose fold and
epilogue bodies (`attention_scaling_coefs_updater.h`,
`epilogue_rescale_output.h`) are not among the given sources.  Per spec
§4.1/§4.2 it folds the key sequence block by block with `fold_block`,
starting from the `-inf`/0 initial state. -/
def runBlocks (blocks : List (List (ℝ × (ℕ → ℝ)))) : AccState :=
  blocks.foldl
    (fun st b => foldBlock (b.map Prod.fst) (b.map Prod.snd) st) initState

/-- Modelled from the spec: finalization `output_row = acc / s` (spec §4.1)
of the blocked computation. -/
def blockedOut (blocks : List (List (ℝ × (ℕ → ℝ)))) (k : ℕ) : ℝ :=
  (runBlocks blocks).buf k / (runBlocks blocks).s

/-- The per-row stream of (scaled score, value row) pairs that a blocking
must partition (spec §4.2). -/
def rowStream (scale : ℝ) (K N : ℕ) (qrow : ℕ → ℝ) (keys vals : ℕ → ℕ → ℝ) :
    List (ℝ × (ℕ → ℝ)) :=
  (List.range N).map (fun l => (scoreRow scale K qrow (keys l), vals l))

/-- Textbook reference algorithm of spec §8: compute the full score row,
subtract the row max, exponentiate, sum, divide, multiply by Value. -/
def textbookOut (scale : ℝ) (K N : ℕ) (qrow : ℕ → ℝ)
    (keys vals : ℕ → ℕ → ℝ) (k : ℕ) : ℝ :=
  ∑ l ∈ Finset.range N,
    Real.exp (scoreRow scale K qrow (keys l) -
        listMax ((List.range N).map (fun l' => scoreRow scale K qrow (keys l')))) /
      (∑ l' ∈ Finset.range N,
        Real.exp (scoreRow scale K qrow (keys l') -
          listMax ((List.range N).map (fun l'' => scoreRow scale K qrow (keys l''))))) *
      vals l k

/-! ### IEEE-754 special-value model

`FP` models a C++ floating-point value exactly: either one of the special
values `nan`, `+inf`, `-inf`, or a finite value carried as an exact real
(rounding is not modelled; special-value propagation follows IEEE 754, with
no negative zero). -/

inductive FP where
  | nan : FP
  | pinf : FP
  | ninf : FP
  | fin : ℝ → FP

/-- IEEE negation. -/
def FP.neg : FP → FP
  | FP.nan => FP.nan
  | FP.pinf => FP.ninf
  | FP.ninf => FP.pinf
  | FP.fin x => FP.fin (-x)

/-- IEEE addition: NaN propagates, `+inf + -inf = NaN`. -/
def FP.add : FP → FP → FP
  | FP.nan, _ => FP.nan
  | _, FP.nan => FP.nan
  | FP.pinf, FP.ninf => FP.nan
  | FP.ninf, FP.pinf => FP.nan
  | FP.pinf, _ => FP.pinf
  | _, FP.pinf => FP.pinf
  | FP.ninf, _ => FP.ninf
  | _, FP.ninf => FP.ninf
  | FP.fin a, FP.fin b => FP.fin (a + b)

/-- IEEE subtraction `a - b = a + (-b)`. -/
def FP.sub (a b : FP) : FP := FP.add a (FP.neg b)

/-- IEEE multiplication: NaN propagates, `±inf * 0 = NaN`, otherwise signs
combine. -/
def FP.mul : FP → FP → FP
  | FP.nan, _ => FP.nan
  | _, FP.nan => FP.nan
  | FP.pinf, FP.pinf => FP.pinf
  | FP.pinf, FP.ninf => FP.ninf
  | FP.ninf, FP.pinf => FP.ninf
  | FP.ninf, FP.ninf => FP.pinf
  | FP.pinf, FP.fin b =>
    if b = 0 then FP.nan else if 0 < b then FP.pinf else FP.ninf
  | FP.fin a, FP.pinf =>
    if a = 0 then FP.nan else if 0 < a then FP.pinf else FP.ninf
  | FP.ninf, FP.fin b =>
    if b = 0 then FP.nan else if 0 < b then FP.ninf else FP.pinf
  | FP.fin a, FP.ninf =>
    if a = 0 then FP.nan else if 0 < a then FP.ninf else FP.pinf
  | FP.fin a, FP.fin b => FP.fin (a * b)

/-- IEEE division (no negative zero: zero is treated as `+0`). -/
def FP.div : FP → FP → FP
  | FP.nan, _ => FP.nan
  | _, FP.nan => FP.nan
  | FP.pinf, FP.pinf => FP.nan
  | FP.pinf, FP.ninf => FP.nan
  | FP.ninf, FP.pinf => FP.nan
  | FP.ninf, FP.ninf => FP.nan
  | FP.pinf, FP.fin b => if 0 ≤ b then FP.pinf else FP.ninf
  | FP.ninf, FP.fin b => if 0 ≤ b then FP.ninf else FP.pinf
  | FP.fin _, FP.pinf => FP.fin 0
  | FP.fin _, FP.ninf => FP.fin 0
  | FP.fin a, FP.fin b =>
    if b = 0 then
      (if a = 0 then FP.nan else if 0 < a then FP.pinf else FP.ninf)
    else FP.fin (a / b)

/-- IEEE `std::exp`: `exp(NaN) = NaN`, `exp(+inf) = +inf`,
`exp(-inf) = 0`. -/
def FP.exp : FP → FP
  | FP.nan => FP.nan
  | FP.pinf => FP.pinf
  | FP.ninf => FP.fin 0
  | FP.fin x => FP.fin (Real.exp x)

/-- The ternary `si > m_prime ? si : m_prime` of `attention.cpp` line 52
under IEEE comparison semantics (any comparison with NaN is false). -/
def FP.selMax : FP → FP → FP
  | FP.nan, m => m
  | _, FP.nan => FP.nan
  | FP.pinf, FP.pinf => FP.pinf
  | FP.pinf, _ => FP.pinf
  | FP.ninf, m => m
  | FP.fin _, FP.pinf => FP.pinf
  | FP.fin a, FP.ninf => FP.fin a
  | FP.fin a, FP.fin b => if b < a then FP.fin a else FP.fin b

/-- Per-row state of the scalar kernel in the IEEE model. -/
structure FState where
  m : FP
  s : FP
  buf : ℕ → FP

/-- The accumulation `si = 0; si += aar[k] * bar[k]` of `attention.cpp`
lines 48-51 in the IEEE model (left-to-right, as the C loop). -/
def dotF (K : ℕ) (a b : ℕ → FP) : FP :=
  (List.range K).foldl (fun si k => FP.add si (FP.mul (a k) (b k))) (FP.fin 0)

/-- First argument passed to `std::exp` in one iteration
(`m_prime - m_i`, `attention.cpp` line 55). -/
def expArgM (st : FState) (si : FP) : FP :=
  FP.sub st.m (FP.selMax si st.m)

/-- Second argument passed to `std::exp` in one iteration
(`si - m_i`, `attention.cpp` line 56). -/
def expArgS (st : FState) (si : FP) : FP :=
  FP.sub si (FP.selMax si st.m)

/-- One iteration of the key loop of `attention.cpp` lines 46-64 in the IEEE
model. -/
def stepF (K : ℕ) (qrow krow vrow : ℕ → FP) (st : FState) : FState :=
  let si := dotF K qrow krow
  let m_i := FP.selMax si st.m
  let m_delta := FP.exp (expArgM st si)
  let s_delta := FP.exp (expArgS st si)
  ⟨m_i, FP.add (FP.mul st.s m_delta) s_delta,
    fun k => FP.add (FP.mul (st.buf k) m_delta) (FP.mul (vrow k) s_delta)⟩

/-- Initial per-row state (`attention.cpp` lines 42-45) in the IEEE model. -/
def initF : FState := ⟨FP.ninf, FP.fin 0, fun _ => FP.fin 0⟩

/-- The key loop of `attention.cpp` lines 46-64 in the IEEE model: state
after `n` iterations. -/
def runF (K : ℕ) (qrow : ℕ → FP) (key value : ℕ → ℕ → FP) : ℕ → FState
  | 0 => initF
  | n + 1 => stepF K qrow (key n) (value n) (runF K qrow key value n)

/-- The scalar kernel in the IEEE model, including the final division
`oo[k] = buf[k] / s_prime` (`attention.cpp` lines 65-68). -/
def attention_kernelF (query key value : ℕ → ℕ → ℕ → FP) (N K : ℕ)
    (i j k : ℕ) : FP :=
  FP.div ((runF K (query i j) (key i) (value i) N).buf k)
    ((runF K (query i j) (key i) (value i) N).s)

/-- Predicate: an IEEE value that may safely be passed to `exp` without
overflow, i.e. `-inf` or a finite value `≤ 0`. -/
def FP.nonposArg : FP → Prop :=
  fun a => a = FP.ninf ∨ ∃ x, x ≤ 0 ∧ a = FP.fin x

/-- Predicate: a kernel state whose running max is finite, whose
normalizing sum is finite and positive, and whose accumulator entries are
all finite. -/
def FStateFin (st : FState) : Prop :=
  (∃ mv, st.m = FP.fin mv) ∧ (∃ sv, 0 < sv ∧ st.s = FP.fin sv) ∧
    ∀ k, ∃ bv, st.buf k = FP.fin bv

/-! ### Masked dense matmul (`matmul.cpp`) -/

/-- `at::matmul(a, b)` for 2-D operands with inner dimension `K`. -/
def matmul (K : ℕ) (a b : ℕ → ℕ → ℝ) : ℕ → ℕ → ℝ :=
  fun i j => ∑ kk ∈ Finset.range K, a i kk * b kk j

/-- `result.masked_fill(mask.logical_not(), -infinity)` (`matmul.cpp`
line 9): entries whose mask is `false` become `-inf`. -/
def masked_fill_neginf (x : ℕ → ℕ → ℝ) (mask : ℕ → ℕ → Bool) :
    ℕ → ℕ → FP :=
  fun i j => if mask i j then FP.fin (x i j) else FP.ninf

/-- `matmul_with_mask_kernel` (`matmul.cpp` lines 7-11). -/
def matmul_with_mask_kernel (K : ℕ) (a b : ℕ → ℕ → ℝ)
    (mask : ℕ → ℕ → Bool) : ℕ → ℕ → FP :=
  masked_fill_neginf (matmul K a b) mask

/-! ### Sparse matmul collaborator (`spmm.cpp`) -/

/-- `LaunchSpmm` (`spmm.cpp` lines 9-34): the entry written to
`output_matrix[b*m*n + i*n + j]`.  The `row_indices` parameter is received
but never read by the loop body. -/
def LaunchSpmm (m k n nonzeros : ℕ) (row_indices : ℕ → ℤ)
    (values : ℕ → ℝ) (row_offsets : ℕ → ℕ) (column_indices : ℕ → ℕ)
    (dense_matrix : ℕ → ℝ) (batch_size : ℕ) : ℕ → ℕ → ℕ → ℝ :=
  fun b i j =>
    ∑ l ∈ Finset.Ico (row_offsets i) (row_offsets (i + 1)),
      values (b * nonzeros + l) *
        dense_matrix (b * k * n + column_indices l * n + j)

/-- Result of `spmm_sputnik`: shape `{batch, m, n}` plus the dense entries. -/
structure SpmmOut where
  sizes : List ℕ
  entry : ℕ → ℕ → ℕ → ℝ

/-- `spmm_sputnik` (`spmm.cpp` lines 36-68): checks
`batch == 1 || nonzeros % 4 == 0`, allocates `{batch, m, n}` and launches
`LaunchSpmm`. -/
def spmm_sputnik (batch k n : ℕ) (b : ℕ → ℝ) (row_indices : ℕ → ℤ)
    (values : ℕ → ℝ) (row_offsets : ℕ → ℕ) (column_indices : ℕ → ℕ)
    (nonzeros m : ℕ) : Option SpmmOut :=
  if batch = 1 ∨ nonzeros % 4 = 0 then
    some ⟨[batch, m, n],
      LaunchSpmm m k n nonzeros row_indices values row_offsets
        column_indices b batch⟩
  else none

/-! ### Concrete inputs used by counterexamples and witnesses -/

/-- Query with every entry 1. -/
def qOne : ℕ → ℕ → ℕ → ℝ := fun _ _ _ => 1

/-- Key tensor: key row 0 is all zeros, key row 1 is `[2, 0, 0, ...]`. -/
def keyCex : ℕ → ℕ → ℕ → ℝ :=
  fun _ l kk => if l = 0 then 0 else if kk = 0 then 2 else 0

/-- Value tensor: value row `l` is constantly `l`. -/
def valCex : ℕ → ℕ → ℕ → ℝ := fun _ l _ => (l : ℝ)

/-- IEEE query with every entry the finite value 1. -/
def qOneF : ℕ → ℕ → ℕ → FP := fun _ _ _ => FP.fin 1

/-- IEEE key tensor with every entry `-inf` (fully masked row). -/
def keyNinfF : ℕ → ℕ → ℕ → FP := fun _ _ _ => FP.ninf

/-- IEEE value tensor with every entry the finite value 1. -/
def valOneF : ℕ → ℕ → ℕ → FP := fun _ _ _ => FP.fin 1

/-! ### Basic lemmas about `xmax` / `listMaxX` -/

lemma xmax_neginf_left (y : XVal) : xmax XVal.neginf y = y := by
  cases y <;> rfl

lemma xmax_neginf_right (x : XVal) : xmax x XVal.neginf = x := by
  cases x <;> rfl

lemma xmax_assoc (a b c : XVal) : xmax (xmax a b) c = xmax a (xmax b c) := by
  cases a <;> cases b <;> cases c <;> simp [xmax, max_assoc]

lemma listMaxX_foldl_init (l : List ℝ) (x : XVal) :
    l.foldl (fun m c => xmax m (XVal.fin c)) x = xmax x (listMaxX l) := by
  induction l generalizing x with
  | nil => simp [listMaxX, xmax_neginf_right]
  | cons c t ih =>
    simp only [listMaxX, List.foldl_cons] at *
    rw [ih, ih (xmax XVal.neginf (XVal.fin c)), xmax_neginf_left, xmax_assoc]

lemma listMaxX_cons (c : ℝ) (t : List ℝ) :
    listMaxX (c :: t) = xmax (XVal.fin c) (listMaxX t) := by
  simp only [listMaxX, List.foldl_cons]
  rw [listMaxX_foldl_init, xmax_neginf_left]
  rfl

lemma listMaxX_append (l₁ l₂ : List ℝ) :
    listMaxX (l₁ ++ l₂) = xmax (listMaxX l₁) (listMaxX l₂) := by
  simp only [listMaxX, List.foldl_append]
  rw [listMaxX_foldl_init]
  rfl

lemma listMaxX_eq_neginf_iff (l : List ℝ) :
    listMaxX l = XVal.neginf ↔ l = [] := by
  cases l with
  | nil => simp [listMaxX]
  | cons c t =>
    rw [listMaxX_cons]
    constructor
    · intro h
      cases hmt : listMaxX t with
      | neginf => rw [hmt] at h; exact absurd h (by simp [xmax])
      | fin mt => rw [hmt] at h; exact absurd h (by simp [xmax])
    · intro h; exact absurd h (by simp)

lemma listMaxX_fin_of_ne_nil (l : List ℝ) (h : l ≠ []) :
    ∃ mm, listMaxX l = XVal.fin mm := by
  cases hml : listMaxX l with
  | neginf => exact absurd ((listMaxX_eq_neginf_iff l).mp hml) h
  | fin mm => exact ⟨mm, rfl⟩

lemma listMaxX_spec (l : List ℝ) (mm : ℝ) (h : listMaxX l = XVal.fin mm) :
    mm ∈ l ∧ ∀ x ∈ l, x ≤ mm := by
  induction l generalizing mm with
  | nil => simp [listMaxX] at h
  | cons c t ih =>
    rw [listMaxX_cons] at h
    cases hmt : listMaxX t with
    | neginf =>
      rw [hmt, xmax_neginf_right] at h
      have hc : c = mm := by cases h; rfl
      have ht : t = [] := (listMaxX_eq_neginf_iff t).mp hmt
      subst hc; subst ht
      exact ⟨List.mem_cons_self _ _, by simp⟩
    | fin mt =>
      rw [hmt] at h
      have hmm : mm = max c mt := by
        simp [xmax] at h; exact h.symm
      obtain ⟨hmem, hle⟩ := ih mt hmt
      constructor
      · rcases max_choice c mt with hc | hc
        · rw [hmm, hc]; exact List.mem_cons_self _ _
        · rw [hmm, hc]; exact List.mem_cons_of_mem _ hmem
      · intro x hx
        rcases List.mem_cons.mp hx with hx | hx
        · rw [hmm, hx]; exact le_max_left _ _
        · rw [hmm]; exact le_trans (hle x hx) (le_max_right _ _)

lemma listMax_eq (l : List ℝ) (mm : ℝ) (h : listMaxX l = XVal.fin mm) :
    listMax l = mm := by
  simp [listMax, h]

/-! ### Lemmas about the weighted sums -/

lemma wsum_append (l₁ l₂ : List ℝ) (mm : ℝ) :
    wsum (l₁ ++ l₂) mm = wsum l₁ mm + wsum l₂ mm := by
  simp [wsum]

lemma wsum_rescale (l : List ℝ) (a b : ℝ) :
    wsum l a * Real.exp (a - b) = wsum l b := by
  unfold wsum
  rw [← List.sum_map_mul_right]
  congr 1
  apply List.map_congr_left
  intro c _
  rw [← Real.exp_add]
  ring_nf

lemma wacc_append (l₁ l₂ : List ℝ) (v₁ v₂ : List (ℕ → ℝ)) (mm : ℝ) (k : ℕ)
    (h : l₁.length = v₁.length) :
    wacc (l₁ ++ l₂) (v₁ ++ v₂) mm k = wacc l₁ v₁ mm k + wacc l₂ v₂ mm k := by
  unfold wacc
  rw [List.zip_append h, List.map_append, List.sum_append]

lemma wacc_rescale (l : List ℝ) (v : List (ℕ → ℝ)) (a b : ℝ) (k : ℕ) :
    wacc l v a k * Real.exp (a - b) = wacc l v b k := by
  unfold wacc
  rw [← List.sum_map_mul_right]
  congr 1
  apply List.map_congr_left
  intro c _
  rw [mul_right_comm, ← Real.exp_add]
  ring_nf

lemma expFrom_fin (a mi : ℝ) : expFrom (XVal.fin a) mi = Real.exp (a - mi) :=
  rfl

lemma expFrom_neginf (mi : ℝ) : expFrom XVal.neginf mi = 0 := rfl

lemma weights_zip_sum (block : List ℝ) (bvals : List (ℕ → ℝ)) (mi : ℝ)
    (k : ℕ) :
    (((block.map (fun c => Real.exp (c - mi))).zip bvals).map
        (fun p => p.1 * p.2 k)).sum = wacc block bvals mi k := by
  unfold wacc
  rw [List.zip_map_left, List.map_map]
  rfl

/-! ### The fold preserves the online-softmax invariant -/

lemma initState_inv : InvState [] [] initState := by
  refine ⟨rfl, ?_, ?_⟩
  · intro mm h
    exact absurd h (by simp [listMaxX])
  · intro _
    exact ⟨rfl, fun _ => rfl⟩

lemma foldBlock_inv (scores : List ℝ) (vals : List (ℕ → ℝ)) (st : AccState)
    (block : List ℝ) (bvals : List (ℕ → ℝ))
    (hlen : scores.length = vals.length) (hbne : block ≠ [])
    (hinv : InvState scores vals st) :
    InvState (scores ++ block) (vals ++ bvals) (foldBlock block bvals st) := by
  obtain ⟨hm, hfin, hnil⟩ := hinv
  obtain ⟨mb, hmb⟩ := listMaxX_fin_of_ne_nil block hbne
  cases hms : listMaxX scores with
  | neginf =>
    have hsnil : scores = [] := (listMaxX_eq_neginf_iff scores).mp hms
    have hvnil : vals = [] := by
      apply List.eq_nil_of_length_eq_zero
      rw [← hlen, hsnil]; rfl
    obtain ⟨hs0, hb0⟩ := hnil hms
    subst hsnil; subst hvnil
    rw [hms] at hm
    simp only [List.nil_append]
    unfold foldBlock
    rw [hm, hmb, xmax_neginf_left]
    refine ⟨?_, ?_, ?_⟩
    · simp [hmb]
    · intro mm hmm
      rw [hmb] at hmm
      cases hmm
      constructor
      · simp only [hs0, expFrom, hm]
        rw [mul_zero, zero_add]
        rfl
      · intro k
        simp only [hb0, expFrom, hm]
        rw [mul_zero, zero_add, weights_zip_sum]
    · intro hmm
      rw [hmb] at hmm
      exact absurd hmm (by simp)
  | fin ma =>
    obtain ⟨hs, hb⟩ := hfin ma hms
    rw [hms] at hm
    have hmapp : listMaxX (scores ++ block) = XVal.fin (max ma mb) := by
      rw [listMaxX_append, hms, hmb]; rfl
    unfold foldBlock
    rw [hm, hmb]
    show InvState _ _ ⟨XVal.fin (max ma mb), _, _⟩
    refine ⟨by rw [hmapp], ?_, ?_⟩
    · intro mm hmm
      rw [hmapp] at hmm
      cases hmm
      constructor
      · dsimp only
        rw [expFrom_fin, wsum_append, hs, wsum_rescale]
        rfl
      · intro k
        dsimp only
        rw [expFrom_fin, wacc_append _ _ _ _ _ _ hlen, hb, wacc_rescale,
          weights_zip_sum]
    · intro hmm
      rw [hmapp] at hmm
      exact absurd hmm (by simp)

/-! ### The scalar kernel is the singleton-block instance of the fold -/

lemma listMaxX_singleton (c : ℝ) : listMaxX [c] = XVal.fin c := by
  rw [listMaxX_cons]
  rfl

lemma stepMax_fin (si m : ℝ) : stepMax si (XVal.fin m) = max m si := by
  show (if si > m then si else m) = max m si
  rcases le_or_lt si m with h | h
  · rw [if_neg (not_lt.mpr h), max_eq_left h]
  · rw [if_pos h, max_eq_right (le_of_lt h)]

lemma scalarStep_eq_foldBlock (K : ℕ) (qrow krow vrow : ℕ → ℝ)
    (st : AccState) :
    scalarStep K qrow krow vrow st = foldBlock [dot K qrow krow] [vrow] st := by
  obtain ⟨m, s, buf⟩ := st
  cases m with
  | neginf =>
    unfold scalarStep foldBlock
    rw [listMaxX_singleton, xmax_neginf_left]
    dsimp only [stepMax]
    simp only [List.map_cons, List.map_nil, List.sum_cons, List.sum_nil,
      List.zip_cons_cons, List.zip_nil_right, add_zero, AccState.mk.injEq,
      eq_self_iff_true, true_and]
    funext k
    simp
  | fin m =>
    unfold scalarStep foldBlock
    rw [listMaxX_singleton]
    show AccState.mk (XVal.fin (stepMax (dot K qrow krow) (XVal.fin m))) _ _ =
      AccState.mk (XVal.fin (max m (dot K qrow krow))) _ _
    rw [stepMax_fin]
    simp only [List.map_cons, List.map_nil, List.sum_cons, List.sum_nil,
      List.zip_cons_cons, List.zip_nil_right, add_zero, AccState.mk.injEq,
      eq_self_iff_true, true_and]
    funext k
    simp [mul_comm]

lemma scalarRun_inv (K : ℕ) (qrow : ℕ → ℝ) (key value : ℕ → ℕ → ℝ) (N : ℕ) :
    InvState ((List.range N).map (fun l => dot K qrow (key l)))
      ((List.range N).map value) (scalarRun K qrow key value N) := by
  induction N with
  | zero => simpa using initState_inv
  | succ n ih =>
    rw [List.range_succ, List.map_append, List.map_append]
    show InvState _ _
      (scalarStep K qrow (key n) (value n) (scalarRun K qrow key value n))
    rw [scalarStep_eq_foldBlock]
    exact foldBlock_inv _ _ _ _ _ (by simp) (by simp) ih

/-! ### Finalization: `acc / s` is the softmax-weighted Value sum -/

lemma list_map_range_sum (N : ℕ) (f : ℕ → ℝ) :
    ((List.range N).map f).sum = ∑ l ∈ Finset.range N, f l := by
  induction N with
  | zero => simp
  | succ n ih => rw [List.range_succ]; simp [ih, Finset.sum_range_succ]

lemma wsum_map_range (S : ℕ → ℝ) (N : ℕ) (mm : ℝ) :
    wsum ((List.range N).map S) mm =
      ∑ l ∈ Finset.range N, Real.exp (S l - mm) := by
  unfold wsum
  rw [List.map_map, list_map_range_sum]
  rfl

lemma wacc_map_range (S : ℕ → ℝ) (v : ℕ → ℕ → ℝ) (N : ℕ) (mm : ℝ) (k : ℕ) :
    wacc ((List.range N).map S) ((List.range N).map v) mm k =
      ∑ l ∈ Finset.range N, Real.exp (S l - mm) * v l k := by
  unfold wacc
  rw [List.zip_map', List.map_map, list_map_range_sum]
  rfl

lemma map_range_ne_nil (N : ℕ) (f : ℕ → ℝ) (hN : 0 < N) :
    (List.range N).map f ≠ [] := by
  apply List.ne_nil_of_length_pos
  simpa using hN

lemma finalize_formula (S : ℕ → ℝ) (v : ℕ → ℕ → ℝ) (N : ℕ) (hN : 0 < N)
    (st : AccState)
    (hinv : InvState ((List.range N).map S) ((List.range N).map v) st)
    (k : ℕ) :
    st.buf k / st.s =
      ∑ l ∈ Finset.range N,
        Real.exp (S l - listMax ((List.range N).map S)) /
          (∑ l' ∈ Finset.range N,
            Real.exp (S l' - listMax ((List.range N).map S))) * v l k := by
  obtain ⟨mm, hmm⟩ :=
    listMaxX_fin_of_ne_nil _ (map_range_ne_nil N S hN)
  obtain ⟨hs, hb⟩ := hinv.2.1 mm hmm
  rw [listMax_eq _ _ hmm, hs, hb k, wsum_map_range, wacc_map_range,
    Finset.sum_div]
  exact Finset.sum_congr rfl fun l _ => mul_div_right_comm _ _ _

/-! ### The blocked computation satisfies the invariant for any blocking -/

lemma runBlocksFrom_inv (blocks : List (List (ℝ × (ℕ → ℝ)))) :
    ∀ (scores : List ℝ) (vals : List (ℕ → ℝ)) (st : AccState),
      scores.length = vals.length → (∀ b ∈ blocks, b ≠ []) →
      InvState scores vals st →
      InvState (scores ++ blocks.flatten.map Prod.fst)
        (vals ++ blocks.flatten.map Prod.snd)
        (blocks.foldl
          (fun st b => foldBlock (b.map Prod.fst) (b.map Prod.snd) st) st) := by
  induction blocks with
  | nil =>
    intro scores vals st _ _ hinv
    simpa using hinv
  | cons b bs ih =>
    intro scores vals st hlen hne hinv
    rw [List.flatten_cons, List.map_append, List.map_append,
      ← List.append_assoc, ← List.append_assoc]
    show InvState _ _
      (bs.foldl (fun st b => foldBlock (b.map Prod.fst) (b.map Prod.snd) st)
        (foldBlock (b.map Prod.fst) (b.map Prod.snd) st))
    apply ih
    · simp [hlen]
    · intro b' hb'
      exact hne b' (List.mem_cons_of_mem _ hb')
    · apply foldBlock_inv _ _ _ _ _ hlen ?_ hinv
      have hb := hne b (List.mem_cons_self _ _)
      simpa using hb

lemma runBlocks_inv (blocks : List (List (ℝ × (ℕ → ℝ))))
    (hne : ∀ b ∈ blocks, b ≠ []) :
    InvState (blocks.flatten.map Prod.fst) (blocks.flatten.map Prod.snd)
      (runBlocks blocks) := by
  have h := runBlocksFrom_inv blocks [] [] initState rfl hne initState_inv
  simpa [runBlocks] using h

lemma rowStream_fst (scale : ℝ) (K N : ℕ) (qrow : ℕ → ℝ)
    (keys vals : ℕ → ℕ → ℝ) :
    (rowStream scale K N qrow keys vals).map Prod.fst =
      (List.range N).map (fun l => scoreRow scale K qrow (keys l)) := by
  simp only [rowStream, List.map_map]
  rfl

lemma rowStream_snd (scale : ℝ) (K N : ℕ) (qrow : ℕ → ℝ)
    (keys vals : ℕ → ℕ → ℝ) :
    (rowStream scale K N qrow keys vals).map Prod.snd =
      (List.range N).map vals := by
  simp only [rowStream, List.map_map]
  rfl

lemma blocked_eq_textbook (scale : ℝ) (K N : ℕ) (qrow : ℕ → ℝ)
    (keys vals : ℕ → ℕ → ℝ) (blocks : List (List (ℝ × (ℕ → ℝ))))
    (hN : 0 < N)
    (hpart : blocks.flatten = rowStream scale K N qrow keys vals)
    (hne : ∀ b ∈ blocks, b ≠ []) (k : ℕ) :
    blockedOut blocks k = textbookOut scale K N qrow keys vals k := by
  have hinv := runBlocks_inv blocks hne
  rw [hpart, rowStream_fst, rowStream_snd] at hinv
  have h := finalize_formula (fun l => scoreRow scale K qrow (keys l)) vals N
    hN _ hinv k
  simpa only [blockedOut, textbookOut] using h

lemma scalar_eq_textbook (query key value : ℕ → ℕ → ℕ → ℝ) (N K i j : ℕ)
    (hN : 0 < N) (k : ℕ) :
    attention_kernel query key value N K i j k =
      textbookOut 1 K N (query i j) (key i) (value i) k := by
  have hinv := scalarRun_inv K (query i j) (key i) (value i) N
  have h := finalize_formula (fun l => dot K (query i j) (key i l))
    (value i) N hN _ hinv k
  simp only [attention_kernel, textbookOut, scoreRow, one_mul]
  exact h

/-! ### Concrete evaluations for the counterexamples -/

lemma dot_q_key0 : dot 4 (qOne 0 0) (keyCex 0 0) = 0 := by
  simp [dot, qOne, keyCex, Finset.sum_range_succ]

lemma dot_q_key1 : dot 4 (qOne 0 0) (keyCex 0 1) = 2 := by
  simp [dot, qOne, keyCex, Finset.sum_range_succ]

lemma dot_ones : dot 4 (qOne 0 0) (fun _ => (1:ℝ)) = 4 := by
  simp [dot, qOne, Finset.sum_range_succ]

lemma sqrt_four : Real.sqrt 4 = 2 := by
  rw [show (4:ℝ) = 2 ^ 2 by norm_num, Real.sqrt_sq (by norm_num : (0:ℝ) ≤ 2)]

lemma tiledScale_four : tiledScale 4 = 1 / 2 := by
  rw [tiledScale, show ((4:ℕ):ℝ) = 4 by norm_num, sqrt_four]

lemma textbook_cex_eval (scale : ℝ) (hs : 0 < scale) :
    textbookOut scale 4 2 (qOne 0 0) (keyCex 0) (valCex 0) 0 =
      1 / (Real.exp (-(scale * 2)) + 1) := by
  have h0 : scoreRow scale 4 (qOne 0 0) (keyCex 0 0) = 0 := by
    rw [scoreRow, dot_q_key0, mul_zero]
  have h1 : scoreRow scale 4 (qOne 0 0) (keyCex 0 1) = scale * 2 := by
    rw [scoreRow, dot_q_key1]
  have hM : listMax ((List.range 2).map
      (fun l' => scoreRow scale 4 (qOne 0 0) (keyCex 0 l'))) = scale * 2 := by
    have hl : (List.range 2).map
        (fun l' => scoreRow scale 4 (qOne 0 0) (keyCex 0 l')) =
          [0, scale * 2] := by
      rw [show (2:ℕ) = 1 + 1 from rfl, List.range_succ, List.range_succ]
      simp [h0, h1]
    rw [hl]
    apply listMax_eq
    rw [listMaxX_cons, listMaxX_singleton]
    show xmax (XVal.fin 0) (XVal.fin (scale * 2)) = XVal.fin (scale * 2)
    rw [show xmax (XVal.fin 0) (XVal.fin (scale * 2)) =
      XVal.fin (max 0 (scale * 2)) from rfl,
      max_eq_right (by positivity : (0:ℝ) ≤ scale * 2)]
  rw [textbookOut]
  rw [Finset.sum_range_succ, Finset.sum_range_succ, Finset.sum_range_zero]
  rw [Finset.sum_range_succ, Finset.sum_range_succ, Finset.sum_range_zero]
  rw [hM, h0, h1]
  simp only [valCex, Nat.cast_zero, Nat.cast_one, mul_zero, mul_one,
    zero_add, sub_self, Real.exp_zero, zero_sub]

/-! ### Claim theorems: C1 and C5 -/

/-- C1: for every query row processed by the scalar attention kernel with at
least one key, at the moment the output row is written the running max `m`
equals the maximum raw score over all keys for that row, and the written
output row `buf[k] / s_prime` equals the softmax-weighted sum of the Value
rows (exact over the embedded real arithmetic). -/
theorem scalar_kernel_row_correct (query key value : ℕ → ℕ → ℕ → ℝ)
    (N K i j : ℕ) (hN : 0 < N) :
    ∃ M : ℝ,
      (scalarRun K (query i j) (key i) (value i) N).m = XVal.fin M ∧
      (∃ l, l < N ∧ dot K (query i j) (key i l) = M) ∧
      (∀ l, l < N → dot K (query i j) (key i l) ≤ M) ∧
      ∀ k, attention_kernel query key value N K i j k =
        ∑ l ∈ Finset.range N,
          Real.exp (dot K (query i j) (key i l) - M) /
            (∑ l' ∈ Finset.range N,
              Real.exp (dot K (query i j) (key i l') - M)) * value i l k := by
  have hinv := scalarRun_inv K (query i j) (key i) (value i) N
  obtain ⟨M, hM⟩ := listMaxX_fin_of_ne_nil _
    (map_range_ne_nil N (fun l => dot K (query i j) (key i l)) hN)
  refine ⟨M, ?_, ?_, ?_, ?_⟩
  · rw [hinv.1, hM]
  · obtain ⟨hmem, _⟩ := listMaxX_spec _ _ hM
    obtain ⟨l, hl, hfl⟩ := List.mem_map.mp hmem
    exact ⟨l, List.mem_range.mp hl, hfl⟩
  · intro l hl
    exact (listMaxX_spec _ _ hM).2 _
      (List.mem_map.mpr ⟨l, List.mem_range.mpr hl, rfl⟩)
  · intro k
    have h := finalize_formula (fun l => dot K (query i j) (key i l))
      (value i) N hN _ hinv k
    rw [listMax_eq _ _ hM] at h
    simpa only [attention_kernel] using h

/-- Witness for C1 at a concrete input (one batch, one key, one feature). -/
theorem scalar_kernel_row_correct_witness :
    ∃ M : ℝ,
      (scalarRun 1 (qOne 0 0) (keyCex 0) (valCex 0) 1).m = XVal.fin M ∧
      (∃ l, l < 1 ∧ dot 1 (qOne 0 0) (keyCex 0 l) = M) ∧
      (∀ l, l < 1 → dot 1 (qOne 0 0) (keyCex 0 l) ≤ M) ∧
      ∀ k, attention_kernel qOne keyCex valCex 1 1 0 0 k =
        ∑ l ∈ Finset.range 1,
          Real.exp (dot 1 (qOne 0 0) (keyCex 0 l) - M) /
            (∑ l' ∈ Finset.range 1,
              Real.exp (dot 1 (qOne 0 0) (keyCex 0 l') - M)) * valCex 0 l k :=
  scalar_kernel_row_correct qOne keyCex valCex 1 1 0 0 (by norm_num)

/-- C5: each `fold_block` step of the online-softmax accumulator preserves
the invariant that, after processing any prefix of keys, `m` is the max
score seen so far, `s = Σ_seen exp(score - m)` and
`acc[k] = Σ_seen exp(score - m) * value[k]` — for every prior prefix, every
nonempty block, and every state satisfying the invariant. -/
theorem fold_block_preserves_invariant (scores : List ℝ)
    (vals : List (ℕ → ℝ)) (st : AccState) (block : List ℝ)
    (bvals : List (ℕ → ℝ)) (hlen : scores.length = vals.length)
    (hbne : block ≠ []) (hinv : InvState scores vals st) :
    InvState (scores ++ block) (vals ++ bvals) (foldBlock block bvals st) :=
  foldBlock_inv scores vals st block bvals hlen hbne hinv

/-- Witness for C5: folding the block `[0]` with value row `1` into the
empty-prefix initial state. -/
theorem fold_block_preserves_invariant_witness :
    InvState ([] ++ [(0:ℝ)]) ([] ++ [fun _ => (1:ℝ)])
      (foldBlock [(0:ℝ)] [fun _ => (1:ℝ)] initState) :=
  fold_block_preserves_invariant [] [] initState [0] [fun _ => 1] rfl
    (by simp) initState_inv

/-! ### Claim theorems: C2 and C3 -/

/-- C2 (amended): for every Query/Key/Value row, every scale, and every
partition of the key stream into nonempty blocks, the blocked/tiled
computation produces exactly the textbook result (full score row, subtract
row max, exponentiate, sum, divide, multiply by Value) — in particular the
output is independent of the blocking; and the scalar one-key-at-a-time
kernel computes the textbook result for the UNSCALED scores (scale 1).  The
tiled kernel (scale `1/sqrt(K)`) and the scalar kernel therefore agree only
up to that scaling of the scores, not as identical functions. -/
theorem blocked_matches_textbook (scale : ℝ) (K N : ℕ) (qrow : ℕ → ℝ)
    (keys vals : ℕ → ℕ → ℝ) (blocks : List (List (ℝ × (ℕ → ℝ))))
    (query key value : ℕ → ℕ → ℕ → ℝ) (i j : ℕ) (hN : 0 < N)
    (hpart : blocks.flatten = rowStream scale K N qrow keys vals)
    (hne : ∀ b ∈ blocks, b ≠ []) :
    (∀ k, blockedOut blocks k = textbookOut scale K N qrow keys vals k) ∧
    (∀ k, attention_kernel query key value N K i j k =
      textbookOut 1 K N (query i j) (key i) (value i) k) :=
  ⟨fun k => blocked_eq_textbook scale K N qrow keys vals blocks hN hpart hne k,
   fun k => scalar_eq_textbook query key value N K i j hN k⟩

/-- Witness for C2 at a concrete input: two keys in a single block, the
tiled scale, head dimension 4. -/
theorem blocked_matches_textbook_witness :
    (∀ k, blockedOut
        [rowStream (tiledScale 4) 4 2 (qOne 0 0) (keyCex 0) (valCex 0)] k =
      textbookOut (tiledScale 4) 4 2 (qOne 0 0) (keyCex 0) (valCex 0) k) ∧
    (∀ k, attention_kernel qOne keyCex valCex 2 4 0 0 k =
      textbookOut 1 4 2 (qOne 0 0) (keyCex 0) (valCex 0) k) :=
  blocked_matches_textbook (tiledScale 4) 4 2 (qOne 0 0) (keyCex 0)
    (valCex 0) [rowStream (tiledScale 4) 4 2 (qOne 0 0) (keyCex 0) (valCex 0)]
    qOne keyCex valCex 0 0 (by norm_num) (by simp)
    (by
      intro b hb
      rw [List.mem_singleton] at hb
      subst hb
      apply List.ne_nil_of_length_pos
      simp [rowStream])

/-- Counterexample to C2 as stated: the tiled computation (which scales the
scores by `1/sqrt(K)`, here `1/2`) and the scalar kernel (which folds the
raw dot products unscaled) disagree at a concrete input with head
dimension 4. -/
theorem tiled_ne_scalar_cex :
    blockedOut
        [rowStream (tiledScale 4) 4 2 (qOne 0 0) (keyCex 0) (valCex 0)] 0 ≠
      attention_kernel qOne keyCex valCex 2 4 0 0 0 := by
  rw [blocked_eq_textbook (tiledScale 4) 4 2 (qOne 0 0) (keyCex 0) (valCex 0)
    _ (by norm_num) (by simp)
    (by
      intro b hb
      rw [List.mem_singleton] at hb
      subst hb
      apply List.ne_nil_of_length_pos
      simp [rowStream]) 0]
  rw [scalar_eq_textbook qOne keyCex valCex 2 4 0 0 (by norm_num) 0]
  rw [textbook_cex_eval (tiledScale 4) (by rw [tiledScale_four]; norm_num)]
  rw [textbook_cex_eval 1 (by norm_num)]
  rw [tiledScale_four]
  rw [show -((1:ℝ) / 2 * 2) = -1 by norm_num, show -((1:ℝ) * 2) = -2 by
    norm_num]
  have hlt : Real.exp (-2) < Real.exp (-1) :=
    Real.exp_lt_exp.mpr (by norm_num)
  have h1 : (0:ℝ) < Real.exp (-2) + 1 := by positivity
  have h2 : (0:ℝ) < Real.exp (-1) + 1 := by positivity
  intro h
  rw [div_eq_div_iff (ne_of_gt h2) (ne_of_gt h1), one_mul, one_mul] at h
  linarith

/-- C3 (amended): the score folded into the accumulator is the scaled dot
product `(Query_i · Key_j) / sqrt(K)` only in the tiled form; the scalar
reference kernel folds the raw dot product `Query_i · Key_j` with no scale
applied. -/
theorem folded_score_scaling :
    (∀ (K : ℕ) (qrow krow vrow : ℕ → ℝ) (st : AccState),
      scalarStep K qrow krow vrow st = foldBlock [dot K qrow krow] [vrow] st) ∧
    (∀ (K : ℕ) (qrow krow : ℕ → ℝ),
      scoreRow (tiledScale K) K qrow krow = dot K qrow krow / Real.sqrt K) :=
  ⟨scalarStep_eq_foldBlock,
   fun K qrow krow => by rw [scoreRow, tiledScale, one_div, inv_mul_eq_div]⟩

/-- Counterexample to C3 as stated: with `K = 4` and all-ones query/key
rows, the scalar kernel's running max after folding the single key is the
raw dot product `4`, not the scaled score `2 = 4 / sqrt 4`. -/
theorem scalar_score_unscaled_cex :
    (scalarRun 4 (qOne 0 0) (fun _ _ => 1) (fun _ _ => 1) 1).m =
        XVal.fin 4 ∧
      scoreRow (tiledScale 4) 4 (qOne 0 0) (fun _ => 1) = 2 ∧ (4:ℝ) ≠ 2 := by
  refine ⟨?_, ?_, by norm_num⟩
  · show XVal.fin (stepMax (dot 4 (qOne 0 0) (fun _ => 1)) XVal.neginf) = _
    rw [dot_ones]
    rfl
  · rw [scoreRow, tiledScale_four, dot_ones]
    norm_num

/-! ### Claim theorems: C4 and C7 (operator wrapper) -/

/-- C4 (amended): when all checks pass, `attention` returns a freshly
allocated dense tensor of shape `(batch, query length, QUERY's feature
dimension K)` — `at::empty({B, M, K}, query.options())` with
`K = query.size(2)` — with the query's element type; the value tensor's own
feature dimension is never consulted. -/
theorem attention_output_shape (q k v t : TensorMeta)
    (h : attention_result q k v = some t) :
    t.sizes = [q.size 0, q.size 1, q.size 2] ∧ t.dtype = q.dtype := by
  unfold attention_result at h
  split at h
  · cases h
    exact ⟨rfl, rfl⟩
  · exact absurd h (by simp)

/-- Witness for C4 at a concrete accepted input. -/
theorem attention_output_shape_witness :
    (⟨[1, 1, 1], true, DType.float32⟩ : TensorMeta).sizes =
        [tFloat.size 0, tFloat.size 1, tFloat.size 2] ∧
      (⟨[1, 1, 1], true, DType.float32⟩ : TensorMeta).dtype = tFloat.dtype :=
  attention_output_shape tFloat tFloat tFloat
    ⟨[1, 1, 1], true, DType.float32⟩ (by decide)

/-- Counterexample to C4 as stated: with value feature dimension 7 against
query/key feature dimension 3, the accepted call returns shape `[1, 2, 3]`
(query's K), not `[1, 2, 7]` (value's K_v). -/
theorem attention_output_shape_cex :
    (attention_result qT4 kT4 vT4).map TensorMeta.sizes = some [1, 2, 3] ∧
      vT4.size 2 = 7 ∧
      ([1, 2, 3] : List ℕ) ≠ [qT4.size 0, qT4.size 1, vT4.size 2] := by
  decide

/-- C7 (amended): the rank checks on Query/Key, the Query/Key feature and
batch matching checks, and the contiguity checks fail before any
allocation; an unsupported or mismatched element type, or a Value of
rank ≠ 3, makes the call fail only AFTER the output and scratch buffers are
allocated; when every condition holds the kernel runs. -/
theorem attention_check_order (q k v : TensorMeta) :
    (attentionPre q k v = false →
      attentionTrace q k v = [AttnEvent.checkFailed]) ∧
    (attentionPre q k v = true → attentionPost q k v = false →
      attentionTrace q k v =
        [AttnEvent.allocOutput [q.size 0, q.size 1, q.size 2] q.dtype,
          AttnEvent.allocBuffer, AttnEvent.checkFailed]) ∧
    (attentionPre q k v = true → attentionPost q k v = true →
      attentionTrace q k v =
        [AttnEvent.allocOutput [q.size 0, q.size 1, q.size 2] q.dtype,
          AttnEvent.allocBuffer, AttnEvent.kernelRun]) := by
  refine ⟨fun h1 => ?_, fun h1 h2 => ?_, fun h1 h2 => ?_⟩
  · simp [attentionTrace, h1]
  · simp [attentionTrace, h1, h2]
  · simp [attentionTrace, h1, h2]

/-- Witness for C7: an unsupported element type (int64) passes the
pre-allocation checks and fails only after both allocations. -/
theorem attention_check_order_witness :
    attentionTrace tInt tInt tInt =
      [AttnEvent.allocOutput [1, 1, 1] DType.int64, AttnEvent.allocBuffer,
        AttnEvent.checkFailed] :=
  (attention_check_order tInt tInt tInt).2.1 (by decide) (by decide)

/-- Counterexample to C7 as stated: for an int64 input (unsupported element
type) the call does NOT fail before allocating — the trace begins with the
output allocation and the buffer allocation precedes the failure. -/
theorem attention_alloc_before_dtype_cex :
    isFloatingType tInt.dtype = false ∧
      attentionPre tInt tInt tInt = true ∧
      attentionTrace tInt tInt tInt ≠ [AttnEvent.checkFailed] ∧
      (attentionTrace tInt tInt tInt).head? =
        some (AttnEvent.allocOutput [1, 1, 1] DType.int64) ∧
      AttnEvent.allocBuffer ∈ attentionTrace tInt tInt tInt := by
  decide

/-! ### Claim theorems: C9 and C10 (collaborators) -/

/-- C9: `matmul_with_mask_kernel` returns the matrix product with every
entry whose mask is `false` replaced by `-inf` and every entry whose mask is
`true` equal to the product entry. -/
theorem matmul_with_mask_correct (K : ℕ) (a b : ℕ → ℕ → ℝ)
    (mask : ℕ → ℕ → Bool) (i j : ℕ) :
    matmul_with_mask_kernel K a b mask i j =
      if mask i j then FP.fin (∑ kk ∈ Finset.range K, a i kk * b kk j)
      else FP.ninf := rfl

/-- C10: `spmm_sputnik` returns identical results for any two values of the
`row_indices` argument, all other arguments equal: `LaunchSpmm` receives
`row_indices` but its loops never read it. -/
theorem spmm_ignores_row_indices (batch k n : ℕ) (b : ℕ → ℝ)
    (ri1 ri2 : ℕ → ℤ) (values : ℕ → ℝ) (row_offsets : ℕ → ℕ)
    (column_indices : ℕ → ℕ) (nonzeros m : ℕ)
    (hpre : batch = 1 ∨ nonzeros % 4 = 0) :
    spmm_sputnik batch k n b ri1 values row_offsets column_indices
        nonzeros m =
      spmm_sputnik batch k n b ri2 values row_offsets column_indices
        nonzeros m := rfl

/-- Witness for C10 at concrete inputs differing only in `row_indices`. -/
theorem spmm_ignores_row_indices_witness :
    spmm_sputnik 1 1 1 (fun _ => 0) (fun _ => 0) (fun _ => 0) (fun _ => 0)
        (fun _ => 0) 0 1 =
      spmm_sputnik 1 1 1 (fun _ => 0) (fun _ => 1) (fun _ => 0) (fun _ => 0)
        (fun _ => 0) 0 1 :=
  spmm_ignores_row_indices 1 1 1 (fun _ => 0) (fun _ => 0) (fun _ => 1)
    (fun _ => 0) (fun _ => 0) (fun _ => 0) 0 1 (Or.inl rfl)

/-! ### Computation lemmas for the IEEE model -/

lemma FP.sub_ninf_ninf : FP.sub FP.ninf FP.ninf = FP.nan := rfl

lemma FP.sub_ninf_fin (c : ℝ) : FP.sub FP.ninf (FP.fin c) = FP.ninf := rfl

lemma FP.sub_fin_fin (a b : ℝ) :
    FP.sub (FP.fin a) (FP.fin b) = FP.fin (a + -b) := rfl

lemma FP.exp_nan : FP.exp FP.nan = FP.nan := rfl

lemma FP.exp_ninf : FP.exp FP.ninf = FP.fin 0 := rfl

lemma FP.exp_fin (x : ℝ) : FP.exp (FP.fin x) = FP.fin (Real.exp x) := rfl

lemma FP.add_fin_fin (a b : ℝ) :
    FP.add (FP.fin a) (FP.fin b) = FP.fin (a + b) := rfl

lemma FP.add_nan_nan : FP.add FP.nan FP.nan = FP.nan := rfl

lemma FP.mul_fin_fin (a b : ℝ) :
    FP.mul (FP.fin a) (FP.fin b) = FP.fin (a * b) := rfl

lemma FP.mul_fin_nan (a : ℝ) : FP.mul (FP.fin a) FP.nan = FP.nan := rfl

lemma FP.mul_nan_nan : FP.mul FP.nan FP.nan = FP.nan := rfl

lemma FP.selMax_ninf_ninf : FP.selMax FP.ninf FP.ninf = FP.ninf := rfl

lemma FP.selMax_fin_ninf (c : ℝ) :
    FP.selMax (FP.fin c) FP.ninf = FP.fin c := rfl

lemma FP.selMax_fin_fin (c mv : ℝ) :
    FP.selMax (FP.fin c) (FP.fin mv) = FP.fin (max mv c) := by
  show (if mv < c then FP.fin c else FP.fin mv) = FP.fin (max mv c)
  rcases lt_or_ge mv c with h | h
  · rw [if_pos h, max_eq_right (le_of_lt h)]
  · rw [if_neg (not_lt.mpr h), max_eq_left h]

lemma FP.div_fin_fin_ne (a b : ℝ) (hb : b ≠ 0) :
    FP.div (FP.fin a) (FP.fin b) = FP.fin (a / b) := by
  show (if b = 0 then _ else FP.fin (a / b)) = FP.fin (a / b)
  rw [if_neg hb]

lemma FP.mul_one_ninf : FP.mul (FP.fin 1) FP.ninf = FP.ninf := by
  show (if (1:ℝ) = 0 then FP.nan else if 0 < (1:ℝ) then FP.ninf else FP.pinf)
    = FP.ninf
  rw [if_neg one_ne_zero, if_pos one_pos]

/-! ### C8: a fully `-inf` score row drives the sum to NaN -/

lemma stepF_ninf_score (K : ℕ) (qrow krow vrow : ℕ → FP) (st : FState)
    (hsi : dotF K qrow krow = FP.ninf) (hm : st.m = FP.ninf) :
    (stepF K qrow krow vrow st).m = FP.ninf ∧
      (stepF K qrow krow vrow st).s = FP.nan := by
  constructor
  · show FP.selMax (dotF K qrow krow) st.m = FP.ninf
    rw [hsi, hm, FP.selMax_ninf_ninf]
  · show FP.add
      (FP.mul st.s (FP.exp (expArgM st (dotF K qrow krow))))
      (FP.exp (expArgS st (dotF K qrow krow))) = FP.nan
    rw [expArgM, expArgS, hsi, hm, FP.selMax_ninf_ninf, FP.sub_ninf_ninf,
      FP.exp_nan]
    cases hs : st.s <;> rfl

lemma runF_all_ninf (K : ℕ) (qrow : ℕ → FP) (key value : ℕ → ℕ → FP)
    (N : ℕ) (hN : 0 < N)
    (hs : ∀ l, l < N → dotF K qrow (key l) = FP.ninf) :
    (runF K qrow key value N).m = FP.ninf ∧
      (runF K qrow key value N).s = FP.nan := by
  induction N with
  | zero => exact absurd hN (by omega)
  | succ n ih =>
    have hsn : dotF K qrow (key n) = FP.ninf := hs n (Nat.lt_succ_self n)
    rcases Nat.eq_zero_or_pos n with hn | hn
    · subst hn
      show (stepF K qrow (key 0) (value 0) initF).m = FP.ninf ∧ _
      exact stepF_ninf_score K qrow (key 0) (value 0) initF hsn rfl
    · obtain ⟨ihm, _⟩ := ih hn (fun l hl => hs l (Nat.lt_succ_of_lt hl))
      exact stepF_ninf_score K qrow (key n) (value n) _ hsn ihm

lemma dotF_qOneF_keyNinfF (l : ℕ) :
    dotF 1 (qOneF 0 0) (keyNinfF 0 l) = FP.ninf := by
  show FP.add (FP.fin 0) (FP.mul (FP.fin 1) FP.ninf) = FP.ninf
  rw [FP.mul_one_ninf]
  rfl

/-! ### Claim theorems: C8 -/

/-- C8 (amended): for a query row all of whose raw scores are `-inf`, the
final normalizing sum `s_prime` is NaN — not 0: the very first fold
computes `exp(-inf - (-inf)) = exp(NaN) = NaN`, which then absorbs the sum.
The computation still terminates normally (it is a total function) and does
not substitute any nonzero finite sum. -/
theorem masked_row_sum_nan (query key value : ℕ → ℕ → ℕ → FP)
    (N K i j : ℕ) (hN : 0 < N)
    (hs : ∀ l, l < N → dotF K (query i j) (key i l) = FP.ninf) :
    (runF K (query i j) (key i) (value i) N).s = FP.nan :=
  (runF_all_ninf K (query i j) (key i) (value i) N hN hs).2

/-- Witness for C8 (amended) at a concrete fully-masked input. -/
theorem masked_row_sum_nan_witness :
    (runF 1 (qOneF 0 0) (keyNinfF 0) (valOneF 0) 2).s = FP.nan :=
  masked_row_sum_nan qOneF keyNinfF valOneF 2 1 0 0 (by norm_num)
    (fun l _ => dotF_qOneF_keyNinfF l)

/-- Counterexample to C8 as stated: at a concrete input whose two raw
scores are both `-inf`, the final normalizing sum is NaN, which is not the
claimed exact 0. -/
theorem all_ninf_scores_sum_cex :
    (∀ l, l < 2 → dotF 1 (qOneF 0 0) (keyNinfF 0 l) = FP.ninf) ∧
      (runF 1 (qOneF 0 0) (keyNinfF 0) (valOneF 0) 2).s = FP.nan ∧
      FP.nan ≠ FP.fin 0 := by
  refine ⟨fun l _ => dotF_qOneF_keyNinfF l, ?_, by simp⟩
  exact (runF_all_ninf 1 (qOneF 0 0) (keyNinfF 0) (valOneF 0) 2 (by norm_num)
    (fun l _ => dotF_qOneF_keyNinfF l)).2

/-! ### C6: finite scores keep every exponent argument nonpositive and the
state finite -/

lemma initF_m : initF.m = FP.ninf := rfl

lemma stepF_m (K : ℕ) (qrow krow vrow : ℕ → FP) (st : FState) :
    (stepF K qrow krow vrow st).m = FP.selMax (dotF K qrow krow) st.m := rfl

lemma stepF_s (K : ℕ) (qrow krow vrow : ℕ → FP) (st : FState) :
    (stepF K qrow krow vrow st).s =
      FP.add (FP.mul st.s (FP.exp (expArgM st (dotF K qrow krow))))
        (FP.exp (expArgS st (dotF K qrow krow))) := rfl

lemma stepF_buf (K : ℕ) (qrow krow vrow : ℕ → FP) (st : FState) (k : ℕ) :
    (stepF K qrow krow vrow st).buf k =
      FP.add (FP.mul (st.buf k) (FP.exp (expArgM st (dotF K qrow krow))))
        (FP.mul (vrow k) (FP.exp (expArgS st (dotF K qrow krow)))) := rfl

lemma expArgM_init (c : ℝ) : expArgM initF (FP.fin c) = FP.ninf := by
  rw [expArgM, initF_m, FP.selMax_fin_ninf, FP.sub_ninf_fin]

lemma expArgS_init (c : ℝ) : expArgS initF (FP.fin c) = FP.fin (c + -c) := by
  rw [expArgS, initF_m, FP.selMax_fin_ninf, FP.sub_fin_fin]

lemma expArgM_fin (st : FState) (mv c : ℝ) (hm : st.m = FP.fin mv) :
    expArgM st (FP.fin c) = FP.fin (mv + -(max mv c)) := by
  rw [expArgM, hm, FP.selMax_fin_fin, FP.sub_fin_fin]

lemma expArgS_fin (st : FState) (mv c : ℝ) (hm : st.m = FP.fin mv) :
    expArgS st (FP.fin c) = FP.fin (c + -(max mv c)) := by
  rw [expArgS, hm, FP.selMax_fin_fin, FP.sub_fin_fin]

lemma stepF_fin_of_init (K : ℕ) (qrow krow vrow : ℕ → FP) (c : ℝ)
    (hc : dotF K qrow krow = FP.fin c)
    (hv : ∀ k, ∃ x, vrow k = FP.fin x) :
    FStateFin (stepF K qrow krow vrow initF) := by
  refine ⟨⟨c, ?_⟩, ⟨0 * 0 + Real.exp (c + -c), ?_, ?_⟩, fun k => ?_⟩
  · rw [stepF_m, hc, initF_m, FP.selMax_fin_ninf]
  · positivity
  · rw [stepF_s, hc, expArgM_init, expArgS_init, FP.exp_ninf, FP.exp_fin]
    show FP.add (FP.mul (FP.fin 0) (FP.fin 0)) _ = _
    rw [FP.mul_fin_fin, FP.add_fin_fin]
  · obtain ⟨x, hx⟩ := hv k
    refine ⟨0 * 0 + x * Real.exp (c + -c), ?_⟩
    rw [stepF_buf, hc, expArgM_init, expArgS_init, FP.exp_ninf, FP.exp_fin,
      hx]
    show FP.add (FP.mul (FP.fin 0) (FP.fin 0)) _ = _
    rw [FP.mul_fin_fin, FP.mul_fin_fin, FP.add_fin_fin]

lemma stepF_fin_of_fin (K : ℕ) (qrow krow vrow : ℕ → FP) (st : FState)
    (c : ℝ) (hc : dotF K qrow krow = FP.fin c)
    (hv : ∀ k, ∃ x, vrow k = FP.fin x) (hst : FStateFin st) :
    FStateFin (stepF K qrow krow vrow st) := by
  obtain ⟨⟨mv, hm⟩, ⟨sv, hsv, hss⟩, hbuf⟩ := hst
  refine ⟨⟨max mv c, ?_⟩,
    ⟨sv * Real.exp (mv + -(max mv c)) + Real.exp (c + -(max mv c)), ?_, ?_⟩,
    fun k => ?_⟩
  · rw [stepF_m, hc, hm, FP.selMax_fin_fin]
  · positivity
  · rw [stepF_s, hc, expArgM_fin st mv c hm, expArgS_fin st mv c hm,
      FP.exp_fin, FP.exp_fin, hss, FP.mul_fin_fin, FP.add_fin_fin]
  · obtain ⟨x, hx⟩ := hv k
    obtain ⟨bv, hbv⟩ := hbuf k
    refine ⟨bv * Real.exp (mv + -(max mv c)) + x * Real.exp (c + -(max mv c)),
      ?_⟩
    rw [stepF_buf, hc, expArgM_fin st mv c hm, expArgS_fin st mv c hm,
      FP.exp_fin, FP.exp_fin, hbv, hx, FP.mul_fin_fin, FP.mul_fin_fin,
      FP.add_fin_fin]

lemma runF_fin (K : ℕ) (qrow : ℕ → FP) (key value : ℕ → ℕ → FP) (N : ℕ)
    (hsfin : ∀ l, l < N → ∃ c, dotF K qrow (key l) = FP.fin c)
    (hvfin : ∀ l k, l < N → ∃ x, value l k = FP.fin x) :
    ∀ n, 0 < n → n ≤ N → FStateFin (runF K qrow key value n) := by
  intro n
  induction n with
  | zero => intro h; exact absurd h (by omega)
  | succ n ih =>
    intro _ hle
    have hnN : n < N := by omega
    obtain ⟨c, hc⟩ := hsfin n hnN
    rcases Nat.eq_zero_or_pos n with hn | hn
    · subst hn
      exact stepF_fin_of_init K qrow (key 0) (value 0) c hc
        (fun k => hvfin 0 k hnN)
    · exact stepF_fin_of_fin K qrow (key n) (value n) _ c hc
        (fun k => hvfin n k hnN) (ih hn (by omega))

/-! ### Claim theorems: C6 -/

/-- C6: for every input whose raw scores (and value entries) are finite, at
every fold both arguments passed to `exp` are nonpositive (`-inf` or a
finite value `≤ 0`, because `m_i` is at least the running max and at least
the new score), and consequently the attention output contains no
infinities and no NaNs — every output entry is a finite value. -/
theorem exp_args_nonpos_output_finite (query key value : ℕ → ℕ → ℕ → FP)
    (N K i j : ℕ) (hN : 0 < N)
    (hsfin : ∀ l, l < N → ∃ c, dotF K (query i j) (key i l) = FP.fin c)
    (hvfin : ∀ l k, l < N → ∃ x, value i l k = FP.fin x) :
    (∀ l, l < N →
      FP.nonposArg (expArgM (runF K (query i j) (key i) (value i) l)
        (dotF K (query i j) (key i l))) ∧
      FP.nonposArg (expArgS (runF K (query i j) (key i) (value i) l)
        (dotF K (query i j) (key i l)))) ∧
    (∀ k, ∃ y, attention_kernelF query key value N K i j k = FP.fin y) := by
  constructor
  · intro l hl
    obtain ⟨c, hc⟩ := hsfin l hl
    rcases Nat.eq_zero_or_pos l with hl0 | hl0
    · subst hl0
      constructor
      · rw [show runF K (query i j) (key i) (value i) 0 = initF from rfl,
          hc, expArgM_init]
        exact Or.inl rfl
      · rw [show runF K (query i j) (key i) (value i) 0 = initF from rfl,
          hc, expArgS_init]
        exact Or.inr ⟨c + -c, by simp, rfl⟩
    · obtain ⟨⟨mv, hm⟩, _, _⟩ := runF_fin K (query i j) (key i) (value i) N
        hsfin hvfin l hl0 (le_of_lt hl)
      constructor
      · rw [hc, expArgM_fin _ mv c hm]
        refine Or.inr ⟨mv + -(max mv c), ?_, rfl⟩
        have := le_max_left mv c
        linarith
      · rw [hc, expArgS_fin _ mv c hm]
        refine Or.inr ⟨c + -(max mv c), ?_, rfl⟩
        have := le_max_right mv c
        linarith
  · intro k
    obtain ⟨_, ⟨sv, hsv, hss⟩, hbuf⟩ := runF_fin K (query i j) (key i)
      (value i) N hsfin hvfin N hN (le_refl N)
    obtain ⟨bv, hbv⟩ := hbuf k
    refine ⟨bv / sv, ?_⟩
    rw [attention_kernelF, hbv, hss, FP.div_fin_fin_ne bv sv (ne_of_gt hsv)]

/-- Witness for C6 at a concrete finite input (one key, one feature,
all-ones query/key/value). -/
theorem exp_args_nonpos_output_finite_witness :
    (∀ l, l < 1 →
      FP.nonposArg (expArgM (runF 1 (qOneF 0 0) (qOneF 0) (valOneF 0) l)
        (dotF 1 (qOneF 0 0) (qOneF 0 l))) ∧
      FP.nonposArg (expArgS (runF 1 (qOneF 0 0) (qOneF 0) (valOneF 0) l)
        (dotF 1 (qOneF 0 0) (qOneF 0 l)))) ∧
    (∀ k, ∃ y, attention_kernelF qOneF qOneF valOneF 1 1 0 0 k = FP.fin y) :=
  exp_args_nonpos_output_finite qOneF qOneF valOneF 1 1 0 0 (by norm_num)
    (fun l _ => ⟨1, by
      show FP.add (FP.fin 0) (FP.mul (FP.fin 1) (FP.fin 1)) = FP.fin 1
      rw [FP.mul_fin_fin, FP.add_fin_fin]
      norm_num⟩)
    (fun l k _ => ⟨1, rfl⟩)

end

end Xf
